import Mathlib

set_option maxRecDepth 8000

namespace LLMSpec

/- Canonical types, translated from src/llm.go and src/agent.go.
   Go strings are Lean `String`s; `json.RawMessage` is a `String`;
   Go `error` values are `String`s carried in `Except`. -/

/-- ToolCall mirrors the Go struct `llm.ToolCall` (src/llm.go / src/tool.go):
an id, a name and raw-JSON arguments. The `ThoughtSignature` bytes are
irrelevant to every claim and are omitted. -/
structure ToolCall where
  id : String
  name : String
  arguments : String
deriving DecidableEq

/-- ChatResponse mirrors `llm.ChatResponse` (src/llm.go): one streaming delta
from a provider. -/
structure ChatResponse where
  role : String := ""
  content : String := ""
  thinking : String := ""
  tool : Option ToolCall := none
  done : Bool := false
deriving DecidableEq

/-- Event mirrors `llm.Event` (src/agent.go): a streaming chunk or the final
response yielded by `Agent.Chat`. -/
structure Event where
  content : String := ""
  thinking : String := ""
  tool : Option ToolCall := none
  done : Bool := false
deriving DecidableEq

/-- Message mirrors `llm.Message` as used by src/agent.go: a conversation
record with role, content, thinking, the tool-call id being answered and the
assistant's outgoing tool call. -/
structure Message where
  role : String := ""
  content : String := ""
  thinking : String := ""
  toolCallID : String := ""
  toolCall : Option ToolCall := none
deriving DecidableEq

deriving instance DecidableEq for Except

/-- One element of a provider stream: the Go iterator `iter.Seq2[*ChatResponse, error]`
yields either a response or an error. -/
abbrev StreamItem := Except String ChatResponse

/-- One element yielded by `Agent.Chat` to its consumer: an event or an error. -/
abbrev AgentItem := Except String Event

/-- A tool's `Run` function: raw-JSON arguments to raw-JSON output or an error
(the Go signature `Run(ctx, json.RawMessage) (json.RawMessage, error)` with the
context dropped). -/
abbrev ToolFn := String → Except String String

/-- Lookup in the agent's tool map. Go builds `toolMap[info.Function.Name] = t`
in registration order, so a later registration of the same name overwrites an
earlier one: the last binding wins. -/
def lookupTool : List (String × ToolFn) → String → Option ToolFn
  | [], _ => none
  | (n, f) :: rest, name =>
    match lookupTool rest name with
    | some g => some g
    | none => if n = name then some f else none

/-- Concatenation of a list of strings in order (the accumulation performed by
`strings.Builder` across deltas). -/
def concatList : List String → String
  | [] => ""
  | s :: rest => s ++ concatList rest

/-- Process one provider stream exactly as the inner `for resp, err := range`
loop of `Agent.Chat` (src/agent.go) does. Returns the events yielded during
the stream, the accumulated content (`assistantContent`), the accumulated
thinking (`assistantThinking`), the last tool call seen (`toolCall`, later
responses overwrite earlier ones) and the terminating error, if any. On an
error the loop yields the events seen so far and `Agent.Chat` returns. -/
def runStream : List StreamItem →
    List Event × String × String × Option ToolCall × Option String
  | [] => ([], "", "", none, none)
  | Except.error e :: _ => ([], "", "", none, some e)
  | Except.ok r :: rest =>
    let (evs, c, th, tc, err) := runStream rest
    ((if r.thinking ≠ "" then [{ thinking := r.thinking }] else []) ++
       (if r.content ≠ "" then [{ content := r.content }] else []) ++ evs,
     r.content ++ c,
     r.thinking ++ th,
     (match tc with
      | some t => some t
      | none => r.tool),
     err)

/-- Outcome of a run of the agent loop in the model. `outOfScript` means the
provider script was exhausted while the loop wanted another turn (the model
artifact for an unbounded conversation). -/
inductive RunOutcome where
  | ok
  | errored (e : String)
  | outOfScript
deriving DecidableEq

/-- The observable result of a run of `Agent.Chat`: the yielded items, the
final conversation history, the provider requests issued (each paired with the
events yielded before it and the message history it carried), and the outcome. -/
structure RunResult where
  events : List AgentItem
  msgs : List Message
  reqs : List (List Event × List Message)
  outcome : RunOutcome
deriving DecidableEq

/-- The `for` loop of `Agent.Chat` (src/agent.go). The provider is modelled by
a script: the list of streams the successive `client.Chat` calls produce. Each
turn issues a request carrying the current history, consumes the stream,
appends the assistant message, and either executes the tool call and loops, or
yields the final `Done` event. The consumer is modelled as consuming every
yielded item (`yield` always returns true). -/
def agentLoop (tools : List (String × ToolFn)) :
    List (List StreamItem) → List Message → RunResult
  | [], msgs => ⟨[], msgs, [], RunOutcome.outOfScript⟩
  | stream :: rest, msgs =>
    let (evs, c, th, tc, err) := runStream stream
    match err with
    | some e =>
      ⟨evs.map Except.ok ++ [Except.error e], msgs, [([], msgs)], RunOutcome.errored e⟩
    | none =>
      let msgs1 := msgs ++ [{ role := "assistant", content := c, thinking := th,
                              toolCall := tc }]
      match tc with
      | none =>
        ⟨evs.map Except.ok ++ [Except.ok { content := c, thinking := th, done := true }],
         msgs1, [([], msgs)], RunOutcome.ok⟩
      | some t =>
        let evTool : Event := { tool := some t }
        match lookupTool tools t.name with
        | none =>
          ⟨evs.map Except.ok ++
             [Except.ok evTool, Except.error ("llm: unknown tool \"" ++ t.name ++ "\"")],
           msgs1, [([], msgs)], RunOutcome.errored ("llm: unknown tool \"" ++ t.name ++ "\"")⟩
        | some fn =>
          let resMsg : Message :=
            match fn t.arguments with
            | Except.error e => { role := "tool", content := "Error: " ++ e, toolCallID := t.id }
            | Except.ok out => { role := "tool", content := out, toolCallID := t.id }
          let r := agentLoop tools rest (msgs1 ++ [resMsg])
          ⟨evs.map Except.ok ++ [Except.ok evTool] ++ r.events,
           r.msgs,
           ([], msgs) :: r.reqs.map (fun p => (evs ++ [evTool] ++ p.1, p.2)),
           r.outcome⟩

/-- Agent.Chat (src/agent.go): append the user message, then run the loop. -/
def agentChat (tools : List (String × ToolFn)) (script : List (List StreamItem))
    (history : List Message) (content : String) : RunResult :=
  agentLoop tools script (history ++ [{ role := "user", content := content }])

/-- The events among the yielded items (dropping error items). -/
def okEvents (items : List AgentItem) : List Event :=
  items.filterMap (fun i => match i with
    | Except.ok e => some e
    | Except.error _ => none)

/-- The events yielded after the last tool-call event (all events when no
tool-call event occurs). These are the deltas of the final provider turn. -/
def afterLastTool : List Event → List Event
  | [] => []
  | e :: rest =>
    if rest.any (fun x => x.tool.isSome) then afterLastTool rest
    else if e.tool.isSome then rest
    else e :: rest

/-- Concatenation of the Content fields of the content-delta events in a list
(events that are neither tool-call events nor the final event; thinking deltas
carry empty content and contribute nothing). -/
def deltasConcat (evs : List Event) : String :=
  concatList ((evs.filter (fun e => e.done = false ∧ e.tool = none)).map Event.content)

/-- Truth test for a yielded item being an event rather than an error. -/
def isOkItem : AgentItem → Bool
  | Except.ok _ => true
  | Except.error _ => false

/-- The ToolCallID fields of the tool-role messages of a history, in order. -/
def toolMsgIds (msgs : List Message) : List String :=
  (msgs.filter (fun m => m.role = "tool")).map Message.toolCallID

/-- The ids of the tool-call events whose names resolve in the tool catalog,
in order of emission. -/
def resolvedToolIds (tools : List (String × ToolFn)) (evs : List Event) :
    List String :=
  evs.filterMap (fun e => match e.tool with
    | some t => if (lookupTool tools t.name).isSome then some t.id else none
    | none => none)

/-- typedFunc.Run (src/tool.go): when the raw arguments are non-empty they are
decoded (a failure becomes the error `tool <name>: unmarshaling input: <err>`);
empty arguments leave the zero value of `In`; the tool function's own error is
propagated unchanged; the output is re-encoded. `decode`/`encode` stand for
`json.Unmarshal`/`json.Marshal` on the typed values. -/
def typedFuncRun {α β : Type} (name : String) (dflt : α)
    (decode : String → Except String α) (run : α → Except String β)
    (encode : β → String) (args : String) : Except String String :=
  match (if args.length > 0 then decode args else Except.ok dflt) with
  | Except.error e => Except.error ("tool " ++ name ++ ": unmarshaling input: " ++ e)
  | Except.ok v =>
    match run v with
    | Except.error e => Except.error e
    | Except.ok out => Except.ok (encode out)

/-- A concrete tool whose JSON decoding fails on every non-empty argument
string, used to exercise the agent loop's error feedback. -/
def c5Fn : ToolFn :=
  typedFuncRun "add" (0 : Nat) (fun _ => Except.error "invalid character")
    (fun n => Except.ok n) (fun n => toString n)

/-- A one-tool catalog holding `c5Fn` under the name the provider calls. -/
def c5Tools : List (String × ToolFn) := [("add", c5Fn)]

/-- A provider turn that asks for the tool `add` with malformed raw arguments. -/
def c5Stream : List StreamItem := [Except.ok { tool := some ⟨"c1", "add", "notjson"⟩ }]

/-- A follow-up provider turn that answers with plain content. -/
def c5Rest : List (List StreamItem) := [[Except.ok { content := "done" }]]

/- Batch (src/internal/batch/batch.go). `Go` reserves slot `i` for the i-th
registered function and stores its result there on success; `errgroup` records
the first non-nil error in completion order; `Wait` returns `(nil, err)` when
that error exists and `(out, nil)` otherwise. The model takes the outcome of
each registered function and the completion order as inputs. -/

/-- The first error in completion order: the error of the first function, in
the order completions are observed, whose outcome is an error (errgroup's
first-error-wins rule). -/
def batchFirstErr {E B : Type} (outcomes : List (Except E B)) : List Nat → Option E
  | [] => none
  | i :: rest =>
    match outcomes[i]? with
    | some (Except.error e) => some e
    | _ => batchFirstErr outcomes rest

/-- Batch.Wait (src/internal/batch/batch.go): on any error return a nil slice
plus the first error; otherwise return the slots in registration order. `zero`
is the Go zero value placed in a slot when it is reserved. -/
def batchWait {E B : Type} (zero : B) (outcomes : List (Except E B))
    (order : List Nat) : List B × Option E :=
  match batchFirstErr outcomes order with
  | some e => ([], some e)
  | none =>
    (outcomes.map (fun o => match o with
      | Except.ok b => b
      | Except.error _ => zero), none)

/-- Model mirrors `llm.Model` (src/llm.go). -/
structure Model where
  provider : String
  name : String
deriving DecidableEq

/-- The state of the closure returned by cache.Models
(src/internal/cache/cache.go): the cached slice (nil when nothing is cached)
and the number of invocations of the wrapped listing function so far. -/
structure MState where
  cache : Option (List Model)
  used : Nat
deriving DecidableEq

/-- One call of the memoized listing (src/internal/cache/cache.go): a non-nil
cache is returned as-is without invoking the wrapped function; otherwise the
wrapped function is invoked (`fn s.used` is the result of its next invocation);
an error caches nothing, a success is stored. The copying performed by
`append([]*llm.Model\x7b\x7d, ...)` preserves list values, so the model returns the
list itself. -/
def modelsStep (fn : Nat → Except String (List Model)) (s : MState) :
    Except String (List Model) × MState :=
  match s.cache with
  | some l => (Except.ok l, s)
  | none =>
    match fn s.used with
    | Except.error e => (Except.error e, ⟨none, s.used + 1⟩)
    | Except.ok ms => (Except.ok ms, ⟨some ms, s.used + 1⟩)

/-- The state after k further calls of the memoized listing. -/
def modelsIterState (fn : Nat → Except String (List Model)) (s : MState) :
    Nat → MState
  | 0 => s
  | k + 1 => (modelsStep fn (modelsIterState fn s k)).2

/-- The classified error returned by a Cmd's Wait in the sandbox back-ends:
context cancellation, deadline expiry, a non-zero exit (exec.ExitError), or
any other failure. -/
inductive WaitErr where
  | canceled
  | deadlineExceeded
  | exitErr (msg : String)
  | otherErr (msg : String)
deriving DecidableEq

/-- The observable behaviour of one `sandbox.Cmd` as consumed by Collect
(src/sandbox/sandbox.go): possible pipe/start failures, the buffered stream
contents, Wait's error and the final ExitCode value. -/
structure CmdSpec where
  stdoutPipeErr : Option String := none
  stderrPipeErr : Option String := none
  startErr : Option String := none
  stdoutData : String := ""
  stderrData : String := ""
  waitErr : Option WaitErr := none
  exitCode : Int := 0
deriving DecidableEq

/-- Result mirrors `sandbox.Result` (src/sandbox/sandbox.go). -/
structure Result where
  stdout : String
  stderr : String
  exitCode : Int
deriving DecidableEq

/-- The distinct error exits of Collect (src/sandbox/sandbox.go). -/
inductive CollectErr where
  | stdoutPipe (e : String)
  | stderrPipe (e : String)
  | startFailed (e : String)
  | waitFailed (w : WaitErr)
deriving DecidableEq

/-- Collect (src/sandbox/sandbox.go): wire the pipes, start, buffer both
streams, wait. A cancellation or deadline error empties the result; any other
Wait error with a non-negative ExitCode is swallowed and the buffered result is
returned with a nil error; a negative ExitCode propagates the Wait error. -/
def collect (c : CmdSpec) : Result × Option CollectErr :=
  match c.stdoutPipeErr with
  | some e => (⟨"", "", 0⟩, some (CollectErr.stdoutPipe e))
  | none =>
  match c.stderrPipeErr with
  | some e => (⟨"", "", 0⟩, some (CollectErr.stderrPipe e))
  | none =>
  match c.startErr with
  | some e => (⟨"", "", 0⟩, some (CollectErr.startFailed e))
  | none =>
    match c.waitErr with
    | none => (⟨c.stdoutData, c.stderrData, c.exitCode⟩, none)
    | some w =>
      if w = WaitErr.canceled ∨ w = WaitErr.deadlineExceeded then
        (⟨"", "", 0⟩, some (CollectErr.waitFailed w))
      else if 0 ≤ c.exitCode then
        (⟨c.stdoutData, c.stderrData, c.exitCode⟩, none)
      else (⟨"", "", 0⟩, some (CollectErr.waitFailed w))

/- Reflection model for generateSchema (src/tool.go). A Go type is abstracted
by the kinds the function inspects; a struct field carries its name, whether it
is exported, and its four struct tags. -/

mutual
inductive GoType where
  | intT
  | uintT
  | floatT
  | boolT
  | stringT
  | sliceT (elem : GoType)
  | arrayT (elem : GoType)
  | structT (fields : List GoField)
  | mapT
  | ptrT (elem : GoType)
  | otherT
inductive GoField where
  | mk (name : String) (exported : Bool) (jsonTag : String)
       (descriptionTag : String) (enumsTag : String) (isTag : String)
       (type : GoType)
end

def GoField.name : GoField → String
  | GoField.mk n _ _ _ _ _ _ => n

def GoField.exported : GoField → Bool
  | GoField.mk _ e _ _ _ _ _ => e

def GoField.jsonTag : GoField → String
  | GoField.mk _ _ j _ _ _ _ => j

def GoField.descriptionTag : GoField → String
  | GoField.mk _ _ _ d _ _ _ => d

def GoField.enumsTag : GoField → String
  | GoField.mk _ _ _ _ en _ _ => en

def GoField.isTag : GoField → String
  | GoField.mk _ _ _ _ _ i _ => i

def GoField.type : GoField → GoType
  | GoField.mk _ _ _ _ _ _ t => t

/-- ToolProperty mirrors `llm.ToolProperty` (src/tool.go), with the recursive
`Items` schema of array types. -/
inductive ToolProperty where
  | mk (type : String) (description : String) (enum : List String)
       (items : Option ToolProperty)

def ToolProperty.type : ToolProperty → String
  | ToolProperty.mk t _ _ _ => t

def ToolProperty.items : ToolProperty → Option ToolProperty
  | ToolProperty.mk _ _ _ it => it

/-- ToolFunctionParameters mirrors the Go struct (src/tool.go). The Go
`Properties` map is modelled as the association list of insertions in field
order; Go map overwrite semantics correspond to the last binding winning. -/
structure ToolFunctionParameters where
  type : String
  properties : List (String × ToolProperty)
  required : List String

def splitCommaAux : List Char → List Char → List String
  | [], acc => [String.mk acc.reverse]
  | ch :: rest, acc =>
    if ch = ',' then String.mk acc.reverse :: splitCommaAux rest []
    else splitCommaAux rest (ch :: acc)

/-- strings.Split(s, ",") as used on the json and enums tags. -/
def splitComma (s : String) : List String :=
  splitCommaAux s.data []

/-- schemaType (src/tool.go): strip pointers, then map the kind; slices and
arrays recurse into Items; everything unlisted is "string". -/
def schemaType : GoType → ToolProperty
  | GoType.ptrT t => schemaType t
  | GoType.intT => ToolProperty.mk "integer" "" [] none
  | GoType.uintT => ToolProperty.mk "integer" "" [] none
  | GoType.floatT => ToolProperty.mk "number" "" [] none
  | GoType.boolT => ToolProperty.mk "boolean" "" [] none
  | GoType.sliceT e => ToolProperty.mk "array" "" [] (some (schemaType e))
  | GoType.arrayT e => ToolProperty.mk "array" "" [] (some (schemaType e))
  | GoType.structT _ => ToolProperty.mk "object" "" [] none
  | GoType.mapT => ToolProperty.mk "object" "" [] none
  | GoType.stringT => ToolProperty.mk "string" "" [] none
  | GoType.otherT => ToolProperty.mk "string" "" [] none

/-- The property name of a field (src/tool.go): the first comma-part of a
non-empty json tag when it is neither empty nor "-", otherwise the Go field
name. Note a "-" tag keeps the field under its Go name. -/
def fieldPropName (f : GoField) : String :=
  if f.jsonTag ≠ "" then
    let p0 := (splitComma f.jsonTag).headD ""
    if p0 ≠ "" ∧ p0 ≠ "-" then p0 else f.name
  else f.name

/-- The enum list of a field: the comma-split of a non-empty enums tag. -/
def fieldEnums (f : GoField) : List String :=
  if f.enumsTag ≠ "" then splitComma f.enumsTag else []

/-- Attach the description and enum read from the tags to a property. -/
def setDescEnum (p : ToolProperty) (d : String) (en : List String) : ToolProperty :=
  match p with
  | ToolProperty.mk t _ _ it => ToolProperty.mk t d en it

/-- One iteration of the field loop of generateSchema (src/tool.go):
unexported fields are skipped; otherwise the property is inserted and the name
appended to `required` when the is tag says so. -/
def addField (params : ToolFunctionParameters) (f : GoField) :
    ToolFunctionParameters :=
  if f.exported = false then params
  else
    { params with
      properties := params.properties ++
        [(fieldPropName f, setDescEnum (schemaType f.type) f.descriptionTag
            (fieldEnums f))],
      required := params.required ++
        (if f.isTag = "required" then [fieldPropName f] else []) }

/-- generateSchema (src/tool.go): dereference a single top-level pointer; a
non-struct yields an empty object schema; a struct folds its fields in order. -/
def generateSchema (t0 : GoType) : ToolFunctionParameters :=
  let t := match t0 with
    | GoType.ptrT e => e
    | _ => t0
  match t with
  | GoType.structT fields => fields.foldl addField ⟨"object", [], []⟩
  | _ => ⟨"object", [], []⟩

/-- The properties the (amended) claim predicts: one entry per exported field,
in order, named by `fieldPropName` and typed by `schemaType`. -/
def claimProperties (fields : List GoField) : List (String × ToolProperty) :=
  (fields.filter (fun f => f.exported)).map (fun f =>
    (fieldPropName f, setDescEnum (schemaType f.type) f.descriptionTag (fieldEnums f)))

/-- The required list the (amended) claim predicts: the property names of the
exported fields tagged is:"required", in order. -/
def claimRequired (fields : List GoField) : List String :=
  ((fields.filter (fun f => f.exported)).filter
    (fun f => f.isTag = "required")).map fieldPropName

/- Anthropic provider adapter (src/providers/anthropic/anthropic.go). The
provider stream events the adapter inspects. -/

inductive AnthDelta where
  | textDelta (s : String)
  | thinkingDelta (s : String)
  | inputJSON (s : String)
  | otherDelta
deriving DecidableEq

inductive AnthEvent where
  | contentBlockDelta (d : AnthDelta)
  | contentBlockStart (toolUse : Option (String × String))
  | contentBlockStop
  | messageDelta (stopReason : String)
  | otherEvent
deriving DecidableEq

/-- The adapter's tool-use tracking state (src/providers/anthropic/anthropic.go):
the id and name of the block being built, and the concatenated argument
fragments (`toolInput`). -/
structure AnthState where
  currentToolUse : Option (String × String)
  toolInput : String
deriving DecidableEq

/-- Modelled from the spec: `normalizeToolArguments` is part of the anthropic
package (its unit tests are under src/providers/anthropic/internal_test.go)
but its definition is not under src. Per the spec, malformed fragment JSON at
block-end is substituted by the empty object and the adapter never crashes.
`jsonValid` stands for the Go standard library's JSON validity test. -/
def normalizeToolArguments (jsonValid : String → Bool) (args : String) : String :=
  if jsonValid args then args else "\x7b\x7d"

/-- One provider event processed as in Client.Chat
(src/providers/anthropic/anthropic.go): text/thinking deltas yield immediately
when non-empty; input-JSON deltas are buffered and yield nothing; a tool-use
block start resets the buffer; a block stop emits the single canonical
tool-call response; a message delta with a stop reason emits the done
response. -/
def anthStep (jsonValid : String → Bool) (s : AnthState) :
    AnthEvent → AnthState × List ChatResponse
  | AnthEvent.contentBlockDelta d =>
    match d with
    | AnthDelta.textDelta t =>
      (s, if t ≠ "" then [{ role := "assistant", content := t }] else [])
    | AnthDelta.thinkingDelta t =>
      (s, if t ≠ "" then [{ role := "assistant", thinking := t }] else [])
    | AnthDelta.inputJSON j => ({ s with toolInput := s.toolInput ++ j }, [])
    | AnthDelta.otherDelta => (s, [])
  | AnthEvent.contentBlockStart tu =>
    match tu with
    | some (id, name) => (⟨some (id, name), ""⟩, [])
    | none => (s, [])
  | AnthEvent.contentBlockStop =>
    match s.currentToolUse with
    | some (id, name) =>
      (⟨none, ""⟩,
       [{ role := "assistant",
          tool := some ⟨id, name, normalizeToolArguments jsonValid s.toolInput⟩ }])
    | none => (s, [])
  | AnthEvent.messageDelta stop =>
    (s, if stop ≠ "" then [{ role := "assistant", done := true }] else [])
  | AnthEvent.otherEvent => (s, [])

/-- The adapter's event loop: fold `anthStep` over the provider events,
concatenating the yielded responses. -/
def anthRun (jsonValid : String → Bool) (s : AnthState) :
    List AnthEvent → List ChatResponse
  | [] => []
  | e :: rest =>
    let (s2, out) := anthStep jsonValid s e
    out ++ anthRun jsonValid s2 rest

/- Shell quoting (src/sandbox/ssh/ssh.go) over explicit character lists. -/

/-- strings.ReplaceAll(input, "'", `'"'"'`): every single quote becomes the
five-character sequence quote, double quote, quote, double quote, quote. -/
def replaceQuote : List Char → List Char
  | [] => []
  | ch :: rest =>
    if ch = '\'' then '\'' :: '"' :: '\'' :: '"' :: '\'' :: replaceQuote rest
    else ch :: replaceQuote rest

/-- shellQuote (src/sandbox/ssh/ssh.go): the empty string becomes two single
quotes; anything else is wrapped in single quotes around the replaced body. -/
def shellQuote (s : List Char) : List Char :=
  if s = [] then ['\'', '\'']
  else '\'' :: (replaceQuote s ++ ['\''])

/-- The quoting mode of a POSIX shell scanning a word. -/
inductive QMode where
  | unquoted
  | single
  | double
deriving DecidableEq

/-- POSIX word evaluation restricted to quote removal: single quotes protect
everything until the closing quote; double quotes protect the characters that
appear inside them in shellQuote's output (only single quotes); an unclosed
quote is an error (`none`). This is the behaviour of `sh -c` on words built
from shellQuote, which contain no unquoted characters other than quotes. -/
def shUnquote : QMode → List Char → Option (List Char)
  | QMode.unquoted, [] => some []
  | QMode.single, [] => none
  | QMode.double, [] => none
  | QMode.unquoted, ch :: rest =>
    if ch = '\'' then shUnquote QMode.single rest
    else if ch = '"' then shUnquote QMode.double rest
    else (shUnquote QMode.unquoted rest).map (fun l => ch :: l)
  | QMode.single, ch :: rest =>
    if ch = '\'' then shUnquote QMode.unquoted rest
    else (shUnquote QMode.single rest).map (fun l => ch :: l)
  | QMode.double, ch :: rest =>
    if ch = '"' then shUnquote QMode.unquoted rest
    else (shUnquote QMode.double rest).map (fun l => ch :: l)

/- Path model for the local sandbox root jail (src/sandbox/local/local.go).
A file path is a flag saying whether it is absolute plus its slash-separated
components; path.Clean, filepath.Join, filepath.Abs and filepath.Rel operate
on the component lists exactly as Go's filepath does on the strings. -/

/-- filepath.Clean on a component list: drop empty and "." components; ".."
pops the previous component, is dropped at the root of an absolute path, and
is kept at the front of a relative path. `acc` is the reversed output so far. -/
def cleanComps (absFlag : Bool) : List String → List String → List String
  | [], acc => acc.reverse
  | comp :: rest, acc =>
    if comp = "" ∨ comp = "." then cleanComps absFlag rest acc
    else if comp = ".." then
      match acc with
      | a :: tl =>
        if a = ".." then cleanComps absFlag rest (comp :: a :: tl)
        else cleanComps absFlag rest tl
      | [] =>
        if absFlag then cleanComps absFlag rest []
        else cleanComps absFlag rest [".."]
    else cleanComps absFlag rest (comp :: acc)

/-- A path as the local sandbox sees it. -/
structure GoPath where
  isAbsolute : Bool
  comps : List String
deriving DecidableEq

/-- filepath.Abs(root) with the process working directory `cwd` (an absolute,
cleaned component list): an absolute path is cleaned, a relative one is joined
onto cwd. -/
def absPath (cwd : List String) (p : GoPath) : List String :=
  if p.isAbsolute then cleanComps true p.comps []
  else cleanComps true (cwd ++ p.comps) []

/-- resolve (src/sandbox/local/local.go): an absolute dir replaces the root,
a relative one is joined onto it; filepath.Rel cleans its inputs, so cleaning
here is observation-equivalent. -/
def resolveDir (rootAbs : List String) (dir : GoPath) : List String :=
  if dir.isAbsolute then cleanComps true dir.comps []
  else cleanComps true (rootAbs ++ dir.comps) []

/-- Strip the longest common component prefix of two cleaned paths (the core
of filepath.Rel). -/
def stripCommon : List String → List String → List String × List String
  | b :: bs, t :: ts =>
    if b = t then stripCommon bs ts else (b :: bs, t :: ts)
  | bs, ts => (bs, ts)

/-- filepath.Rel(base, targ) on cleaned absolute component lists: one ".." per
remaining base component followed by the remaining target components, or "."
when the paths are equal. -/
def relComps (base targ : List String) : List String :=
  let p := stripCommon base targ
  let r := List.replicate p.1.length ".." ++ p.2
  if r = [] then ["."] else r

/-- Render a component list back to the slash-separated string filepath.Rel
returns. -/
def renderComps : List String → String
  | [] => ""
  | [c] => c
  | c :: rest => c ++ "/" ++ renderComps rest

/-- strings.HasPrefix(s, p). -/
def strStartsWith (s p : String) : Bool :=
  p.data.isPrefixOf s.data

/-- isOutsideRoot (src/sandbox/local/local.go): the rendered relative path is
".." or starts with "../" (".." followed by the separator). -/
def isOutsideRoot (rootDir workDir : List String) : Bool :=
  let r := renderComps (relComps rootDir workDir)
  (r == "..") || strStartsWith r "../"

/-- The root-containment check of Sandbox.Run (src/sandbox/local/local.go):
resolve the root and the working directory, fail with the outside-root error
when `isOutsideRoot` holds, otherwise proceed to execute the command. -/
def localRunCheck (cwd : List String) (root dir : GoPath) : Except String Unit :=
  let rootDir := absPath cwd root
  let workDir := resolveDir rootDir dir
  if isOutsideRoot rootDir workDir then
    Except.error "sandbox/local: working dir is outside of root"
  else Except.ok ()

/-- Whether a Go (value, error) pair carries a nil error. -/
def exceptIsOk {ε α : Type} : Except ε α → Bool
  | Except.ok _ => true
  | Except.error _ => false

/-- A component produced by cleaning an absolute path: non-empty and neither
"." nor "..". -/
def GoodComp (c : String) : Prop := c ≠ "" ∧ c ≠ "." ∧ c ≠ ".."

/-- A component that contains no separator, the well-formedness condition
relating the component model to path strings. -/
def NoSlash (c : String) : Prop := '/' ∉ c.data
theorem runStream_events_plain (s : List StreamItem) :
    ∀ e ∈ (runStream s).1, e.tool = none ∧ e.done = false := by
  induction s with
  | nil => intro e he; simp [runStream] at he
  | cons item rest ih =>
    intro e he
    cases item with
    | error err => simp [runStream] at he
    | ok r =>
      simp only [runStream] at he
      rcases List.mem_append.mp he with h1 | h2
      · rcases List.mem_append.mp h1 with h3 | h4
        · by_cases ht : r.thinking ≠ "" <;> simp [ht] at h3 <;> simp [h3]
        · by_cases hc : r.content ≠ "" <;> simp [hc] at h4 <;> simp [h4]
      · exact ih e h2

theorem runStream_content_concat (s : List StreamItem) :
    (runStream s).2.1 = concatList ((runStream s).1.map Event.content) := by
  induction s with
  | nil => simp [runStream, concatList]
  | cons item rest ih =>
    cases item with
    | error err => simp [runStream, concatList]
    | ok r =>
      simp only [runStream]
      by_cases ht : r.thinking ≠ "" <;> by_cases hc : r.content ≠ "" <;>
        simp [ht, hc, concatList, ih]
      · push_neg at hc; simp [hc]
      · push_neg at hc; simp [hc]

theorem deltasConcat_of_plain (evs : List Event)
    (h : ∀ e ∈ evs, e.tool = none ∧ e.done = false) :
    deltasConcat evs = concatList (evs.map Event.content) := by
  unfold deltasConcat
  congr 1
  rw [List.filter_eq_self.mpr]
  intro e he
  rcases h e he with ⟨h1, h2⟩
  simp [h1, h2]

theorem afterLastTool_of_no_tool (evs : List Event)
    (h : evs.all (fun x => x.tool = none) = true) : afterLastTool evs = evs := by
  induction evs with
  | nil => rfl
  | cons e rest ih =>
    simp only [List.all_cons, Bool.and_eq_true] at h
    have hany : rest.any (fun x => x.tool.isSome) = false := by
      rw [List.any_eq_false]
      intro x hx
      have := List.all_eq_true.mp h.2 x hx
      simp at this
      simp [this]
    have he : e.tool.isSome = false := by
      have := h.1
      simp at this
      simp [this]
    simp [afterLastTool, hany, he]

theorem afterLastTool_append_tool (t : Event) (ht : t.tool.isSome = true)
    (xs ys : List Event) : afterLastTool (xs ++ t :: ys) = afterLastTool ys := by
  induction xs with
  | nil =>
    by_cases hy : ys.any (fun x => x.tool.isSome)
    · simp [afterLastTool, hy]
    · have hy2 : (ys.any fun x => x.tool.isSome) = false := by simpa using hy
      have hys : afterLastTool ys = ys := by
        apply afterLastTool_of_no_tool
        rw [List.any_eq_false] at hy2
        rw [List.all_eq_true]
        intro x hx
        have := hy2 x hx
        simp at this
        simp [this]
      simp [afterLastTool, hy2, ht, hys]
  | cons x xs ih =>
    have hany : ((xs ++ t :: ys).any fun x => x.tool.isSome) = true := by
      rw [List.any_eq_true]
      exact ⟨t, by simp, ht⟩
    rw [List.cons_append]
    rw [show afterLastTool (x :: (xs ++ t :: ys)) = afterLastTool (xs ++ t :: ys) by
      simp only [afterLastTool, hany, if_true]]
    exact ih

theorem okEvents_map_ok (l : List Event) : okEvents (l.map Except.ok) = l := by
  induction l with
  | nil => rfl
  | cons e rest ih => simp [okEvents] at ih ⊢; exact ih

theorem okEvents_append (a b : List AgentItem) :
    okEvents (a ++ b) = okEvents a ++ okEvents b := by
  simp [okEvents]

theorem getLast?_some_ne_nil {α : Type} {l : List α} {a : α}
    (h : l.getLast? = some a) : l ≠ [] := by
  intro hnil
  rw [hnil] at h
  simp at h

theorem final_event_extend (evs : List Event) (t : ToolCall) (items : List AgentItem)
    (hplain : ∀ e ∈ evs, e.tool = none ∧ e.done = false)
    (hallok : items.all isOkItem = true)
    (ev : Event)
    (hlast : items.getLast? = some (Except.ok ev))
    (hdone : ev.done = true)
    (hcont : ev.content = deltasConcat (afterLastTool (okEvents items.dropLast))) :
    (evs.map Except.ok ++ [Except.ok (⟨"", "", some t, false⟩ : Event)] ++ items).all
        isOkItem = true ∧
    ∃ ev2, (evs.map Except.ok ++ [Except.ok (⟨"", "", some t, false⟩ : Event)] ++
        items).getLast? = some (Except.ok ev2) ∧ ev2.done = true ∧
      ev2.content = deltasConcat (afterLastTool (okEvents
        (evs.map Except.ok ++ [Except.ok (⟨"", "", some t, false⟩ : Event)] ++
          items).dropLast)) := by
  have hne : items ≠ [] := getLast?_some_ne_nil hlast
  have hne2 : [Except.ok (⟨"", "", some t, false⟩ : Event)] ++ items ≠ [] := by simp
  constructor
  · simp only [List.all_append, Bool.and_eq_true]
    refine ⟨⟨?_, ?_⟩, hallok⟩
    · rw [List.all_eq_true]
      intro x hx
      rcases List.mem_map.mp hx with ⟨e, _, he⟩
      rw [← he]
      rfl
    · rfl
  · refine ⟨ev, ?_, hdone, ?_⟩
    · rw [List.append_assoc, List.getLast?_append_of_ne_nil _ hne2,
        List.getLast?_append_of_ne_nil _ hne, hlast]
    · rw [List.append_assoc, List.dropLast_append_of_ne_nil _ hne2,
        List.dropLast_append_of_ne_nil _ hne]
      rw [← List.append_assoc, okEvents_append, okEvents_append, okEvents_map_ok]
      have hsing : okEvents [Except.ok (⟨"", "", some t, false⟩ : Event)] =
          [⟨"", "", some t, false⟩] := rfl
      rw [hsing, List.append_assoc, List.singleton_append,
        afterLastTool_append_tool ⟨"", "", some t, false⟩ rfl]
      exact hcont

theorem agentLoop_final_event (tools : List (String × ToolFn)) :
    ∀ (script : List (List StreamItem)) (msgs : List Message),
    (agentLoop tools script msgs).outcome = RunOutcome.ok →
    (agentLoop tools script msgs).events.all isOkItem = true ∧
    ∃ ev, (agentLoop tools script msgs).events.getLast? = some (Except.ok ev) ∧
      ev.done = true ∧
      ev.content = deltasConcat (afterLastTool (okEvents
        (agentLoop tools script msgs).events.dropLast)) := by
  intro script
  induction script with
  | nil => intro msgs h; simp [agentLoop] at h
  | cons stream rest ih =>
    intro msgs h
    rcases hrs : runStream stream with ⟨evs, c, th, tc, err⟩
    have hplain : ∀ e ∈ evs, e.tool = none ∧ e.done = false := by
      have := runStream_events_plain stream
      rw [hrs] at this
      exact this
    have hcontent : c = concatList (evs.map Event.content) := by
      have := runStream_content_concat stream
      rw [hrs] at this
      exact this
    simp only [agentLoop, hrs] at h ⊢
    cases err with
    | some e => simp at h
    | none =>
      cases tc with
      | none =>
        simp only at h ⊢
        constructor
        · simp only [List.all_append, Bool.and_eq_true]
          constructor
          · rw [List.all_eq_true]
            intro x hx
            rcases List.mem_map.mp hx with ⟨e, _, he⟩
            rw [← he]
            rfl
          · rfl
        · refine ⟨{ content := c, thinking := th, done := true }, ?_, rfl, ?_⟩
          · rw [List.getLast?_concat]
          · rw [List.dropLast_concat, okEvents_map_ok,
              afterLastTool_of_no_tool, deltasConcat_of_plain evs hplain]
            · exact hcontent
            · rw [List.all_eq_true]
              intro x hx
              simp [(hplain x hx).1]
      | some t =>
        cases hlook : lookupTool tools t.name with
        | none => simp [hlook] at h
        | some fn =>
          simp only [hlook] at h ⊢
          obtain ⟨hallok, ev, hlast, hdone, hcont⟩ := ih _ h
          exact final_event_extend evs t _ hplain hallok ev hlast hdone hcont

theorem agentLoop_reqs_length_pos (tools : List (String × ToolFn))
    (stream : List StreamItem) (rest : List (List StreamItem)) (m : List Message) :
    1 ≤ (agentLoop tools (stream :: rest) m).reqs.length := by
  rcases hrs : runStream stream with ⟨evs, c, th, tc, err⟩
  simp only [agentLoop, hrs]
  cases err with
  | some e => simp
  | none =>
    cases tc with
    | none => simp
    | some t =>
      cases hlook : lookupTool tools t.name with
      | none => simp [hlook]
      | some fn => simp [hlook]

/-- Claim C5: whenever a tool resolved by the agent loop returns an error from
Run (JSON argument-decode failures included, via typedFuncRun), the loop
appends a tool-role message whose content is the error text prefixed with
"Error: " and whose ToolCallID is the tool call's id, and then continues with
the remaining provider turns (one further request per remaining turn) instead
of terminating. -/
theorem c5_tool_error_recovery
    (tools : List (String × ToolFn)) (stream : List StreamItem)
    (rest : List (List StreamItem)) (msgs : List Message)
    (evs : List Event) (c th : String) (t : ToolCall) (fn : ToolFn) (e : String)
    (hrs : runStream stream = (evs, c, th, some t, none))
    (hlook : lookupTool tools t.name = some fn)
    (hfn : fn t.arguments = Except.error e) :
    agentLoop tools (stream :: rest) msgs =
      { events := evs.map Except.ok ++ [Except.ok (⟨"", "", some t, false⟩ : Event)] ++
          (agentLoop tools rest (msgs ++
            [⟨"assistant", c, th, "", some t⟩,
             ⟨"tool", "Error: " ++ e, "", t.id, none⟩])).events,
        msgs := (agentLoop tools rest (msgs ++
            [⟨"assistant", c, th, "", some t⟩,
             ⟨"tool", "Error: " ++ e, "", t.id, none⟩])).msgs,
        reqs := ([], msgs) :: (agentLoop tools rest (msgs ++
            [⟨"assistant", c, th, "", some t⟩,
             ⟨"tool", "Error: " ++ e, "", t.id, none⟩])).reqs.map
              (fun p => (evs ++ [⟨"", "", some t, false⟩] ++ p.1, p.2)),
        outcome := (agentLoop tools rest (msgs ++
            [⟨"assistant", c, th, "", some t⟩,
             ⟨"tool", "Error: " ++ e, "", t.id, none⟩])).outcome } ∧
    (rest ≠ [] → 2 ≤ (agentLoop tools (stream :: rest) msgs).reqs.length) := by
  have heq : agentLoop tools (stream :: rest) msgs =
      { events := evs.map Except.ok ++ [Except.ok (⟨"", "", some t, false⟩ : Event)] ++
          (agentLoop tools rest (msgs ++
            [⟨"assistant", c, th, "", some t⟩,
             ⟨"tool", "Error: " ++ e, "", t.id, none⟩])).events,
        msgs := (agentLoop tools rest (msgs ++
            [⟨"assistant", c, th, "", some t⟩,
             ⟨"tool", "Error: " ++ e, "", t.id, none⟩])).msgs,
        reqs := ([], msgs) :: (agentLoop tools rest (msgs ++
            [⟨"assistant", c, th, "", some t⟩,
             ⟨"tool", "Error: " ++ e, "", t.id, none⟩])).reqs.map
              (fun p => (evs ++ [⟨"", "", some t, false⟩] ++ p.1, p.2)),
        outcome := (agentLoop tools rest (msgs ++
            [⟨"assistant", c, th, "", some t⟩,
             ⟨"tool", "Error: " ++ e, "", t.id, none⟩])).outcome } := by
    simp only [agentLoop, hrs, hlook, hfn, List.append_assoc]
    rfl
  refine ⟨heq, ?_⟩
  intro hne
  rw [heq]
  cases rest with
  | nil => exact absurd rfl hne
  | cons s rest2 =>
    have h1 := agentLoop_reqs_length_pos tools s rest2 (msgs ++
      [⟨"assistant", c, th, "", some t⟩,
       ⟨"tool", "Error: " ++ e, "", t.id, none⟩])
    simp only [List.length_cons, List.length_map]
    omega

theorem toolMsgIds_append (a b : List Message) :
    toolMsgIds (a ++ b) = toolMsgIds a ++ toolMsgIds b := by
  simp [toolMsgIds]

theorem resolvedToolIds_append (tools : List (String × ToolFn)) (a b : List Event) :
    resolvedToolIds tools (a ++ b) = resolvedToolIds tools a ++ resolvedToolIds tools b := by
  simp [resolvedToolIds]

theorem resolvedToolIds_of_plain (tools : List (String × ToolFn)) (evs : List Event)
    (h : ∀ e ∈ evs, e.tool = none) : resolvedToolIds tools evs = [] := by
  induction evs with
  | nil => rfl
  | cons e rest ih =>
    have he := h e (by simp)
    simp only [resolvedToolIds, List.filterMap_cons, he]
    exact ih (fun x hx => h x (by simp [hx]))

theorem agentLoop_msgs_extends (tools : List (String × ToolFn)) :
    ∀ (script : List (List StreamItem)) (m : List Message),
    ∃ s, (agentLoop tools script m).msgs = m ++ s := by
  intro script
  induction script with
  | nil => intro m; exact ⟨[], by simp [agentLoop]⟩
  | cons stream rest ih =>
    intro m
    rcases hrs : runStream stream with ⟨evs, c, th, tc, err⟩
    simp only [agentLoop, hrs]
    cases err with
    | some e => exact ⟨[], by simp⟩
    | none =>
      cases tc with
      | none => exact ⟨[⟨"assistant", c, th, "", none⟩], rfl⟩
      | some t =>
        cases hlook : lookupTool tools t.name with
        | none => exact ⟨[⟨"assistant", c, th, "", some t⟩], by simp [hlook]⟩
        | some fn =>
          obtain ⟨s, hs⟩ := ih ((m ++ [⟨"assistant", c, th, "", some t⟩]) ++
            [match fn t.arguments with
             | Except.error e => ⟨"tool", "Error: " ++ e, "", t.id, none⟩
             | Except.ok out => ⟨"tool", out, "", t.id, none⟩])
          refine ⟨[⟨"assistant", c, th, "", some t⟩] ++
            [match fn t.arguments with
             | Except.error e => ⟨"tool", "Error: " ++ e, "", t.id, none⟩
             | Except.ok out => ⟨"tool", out, "", t.id, none⟩] ++ s, ?_⟩
          simp only [hlook]
          rw [hs]
          simp [List.append_assoc]

theorem agentLoop_reqs_extends (tools : List (String × ToolFn)) :
    ∀ (script : List (List StreamItem)) (m : List Message),
    ∀ p ∈ (agentLoop tools script m).reqs, ∃ s, p.2 = m ++ s := by
  intro script
  induction script with
  | nil => intro m p hp; simp [agentLoop] at hp
  | cons stream rest ih =>
    intro m p hp
    rcases hrs : runStream stream with ⟨evs, c, th, tc, err⟩
    simp only [agentLoop, hrs] at hp
    cases err with
    | some e =>
      simp at hp
      exact ⟨[], by simp [hp]⟩
    | none =>
      cases tc with
      | none =>
        simp at hp
        exact ⟨[], by simp [hp]⟩
      | some t =>
        cases hlook : lookupTool tools t.name with
        | none =>
          simp [hlook] at hp
          exact ⟨[], by simp [hp]⟩
        | some fn =>
          simp only [hlook, List.mem_cons] at hp
          rcases hp with hp | hp
          · exact ⟨[], by simp [hp]⟩
          · rcases List.mem_map.mp hp with ⟨q, hq, hpq⟩
            obtain ⟨s, hs⟩ := ih _ q hq
            refine ⟨[⟨"assistant", c, th, "", some t⟩] ++
              [match fn t.arguments with
               | Except.error e => ⟨"tool", "Error: " ++ e, "", t.id, none⟩
               | Except.ok out => ⟨"tool", out, "", t.id, none⟩] ++ s, ?_⟩
            rw [← hpq]
            simp only
            rw [hs]
            simp [List.append_assoc]

theorem drop_two_append {α : Type} (m : List α) (a b : α) (s : List α) :
    (((m ++ [a]) ++ [b]) ++ s).drop m.length = a :: b :: s := by
  have h : ((m ++ [a]) ++ [b]) ++ s = m ++ (a :: b :: s) := by simp
  rw [h, List.drop_left]

theorem agentLoop_tool_echo (tools : List (String × ToolFn)) :
    ∀ (script : List (List StreamItem)) (m : List Message),
    toolMsgIds ((agentLoop tools script m).msgs.drop m.length) =
      resolvedToolIds tools (okEvents (agentLoop tools script m).events) ∧
    ∀ p ∈ (agentLoop tools script m).reqs,
      toolMsgIds (p.2.drop m.length) = resolvedToolIds tools p.1 := by
  intro script
  induction script with
  | nil =>
    intro m
    constructor
    · simp only [agentLoop]
      rw [List.drop_length]
      rfl
    · intro p hp
      simp [agentLoop] at hp
  | cons stream rest ih =>
    intro m
    rcases hrs : runStream stream with ⟨evs, c, th, tc, err⟩
    have hplain : ∀ e ∈ evs, e.tool = none := by
      intro e he
      have := runStream_events_plain stream
      rw [hrs] at this
      exact (this e he).1
    have hresolved : resolvedToolIds tools evs = [] :=
      resolvedToolIds_of_plain tools evs hplain
    simp only [agentLoop, hrs]
    cases err with
    | some e =>
      constructor
      · rw [List.drop_length, okEvents_append, okEvents_map_ok]
        rw [show okEvents [Except.error e] = [] from rfl]
        rw [List.append_nil, hresolved]
        rfl
      · intro p hp
        simp only [List.mem_singleton] at hp
        subst hp
        rw [show (([], m) : List Event × List Message).2 = m from rfl, List.drop_length]
        rfl
    | none =>
      cases tc with
      | none =>
        constructor
        · rw [List.drop_left, okEvents_append, okEvents_map_ok]
          rw [show okEvents [Except.ok (⟨c, th, none, true⟩ : Event)] =
            [⟨c, th, none, true⟩] from rfl]
          rw [resolvedToolIds_append, hresolved]
          rw [show resolvedToolIds tools [⟨c, th, none, true⟩] = [] from rfl]
          rfl
        · intro p hp
          simp only [List.mem_singleton] at hp
          subst hp
          rw [show (([], m) : List Event × List Message).2 = m from rfl, List.drop_length]
          rfl
      | some t =>
        cases hlook : lookupTool tools t.name with
        | none =>
          constructor
          · simp only [hlook]
            rw [List.drop_left, okEvents_append, okEvents_map_ok]
            rw [show okEvents [Except.ok (⟨"", "", some t, false⟩ : Event),
              Except.error ("llm: unknown tool \"" ++ t.name ++ "\"")] =
              [⟨"", "", some t, false⟩] from rfl]
            rw [resolvedToolIds_append, hresolved]
            have h0 : resolvedToolIds tools [⟨"", "", some t, false⟩] = [] := by
              simp [resolvedToolIds, hlook]
            rw [h0]
            rfl
          · simp only [hlook]
            intro p hp
            simp only [List.mem_singleton] at hp
            subst hp
            rw [show (([], m) : List Event × List Message).2 = m from rfl, List.drop_length]
            rfl
        | some fn =>
          simp only [hlook]
          have hresolvedTool : resolvedToolIds tools
              [⟨"", "", some t, false⟩] = [t.id] := by
            simp [resolvedToolIds, hlook]
          obtain ⟨ih1, ih2⟩ := ih ((m ++ [⟨"assistant", c, th, "", some t⟩]) ++
            [match fn t.arguments with
             | Except.error e => ⟨"tool", "Error: " ++ e, "", t.id, none⟩
             | Except.ok out => ⟨"tool", out, "", t.id, none⟩])
          have hmid : toolMsgIds ((⟨"assistant", c, th, "", some t⟩ : Message) ::
              (match fn t.arguments with
               | Except.error e => (⟨"tool", "Error: " ++ e, "", t.id, none⟩ : Message)
               | Except.ok out => ⟨"tool", out, "", t.id, none⟩) :: []) = [t.id] := by
            cases hfa : fn t.arguments with
            | error e => rfl
            | ok out => rfl
          constructor
          · obtain ⟨s, hs⟩ := agentLoop_msgs_extends tools rest
              ((m ++ [⟨"assistant", c, th, "", some t⟩]) ++
               [match fn t.arguments with
                | Except.error e => ⟨"tool", "Error: " ++ e, "", t.id, none⟩
                | Except.ok out => ⟨"tool", out, "", t.id, none⟩])
            rw [hs] at ih1 ⊢
            rw [List.drop_left] at ih1
            rw [drop_two_append]
            rw [show ((⟨"assistant", c, th, "", some t⟩ : Message) ::
              (match fn t.arguments with
               | Except.error e => (⟨"tool", "Error: " ++ e, "", t.id, none⟩ : Message)
               | Except.ok out => ⟨"tool", out, "", t.id, none⟩) :: s) =
              ((⟨"assistant", c, th, "", some t⟩ : Message) ::
               (match fn t.arguments with
                | Except.error e => (⟨"tool", "Error: " ++ e, "", t.id, none⟩ : Message)
                | Except.ok out => ⟨"tool", out, "", t.id, none⟩) :: []) ++ s from rfl]
            rw [toolMsgIds_append, hmid]
            rw [okEvents_append, okEvents_append, okEvents_map_ok]
            rw [show okEvents [Except.ok (⟨"", "", some t, false⟩ : Event)] =
              [⟨"", "", some t, false⟩] from rfl]
            rw [resolvedToolIds_append, resolvedToolIds_append, hresolved,
              hresolvedTool, ih1]
            rfl
          · intro p hp
            simp only [List.mem_cons] at hp
            rcases hp with hp | hp
            · subst hp
              rw [show (([], m) : List Event × List Message).2 = m from rfl,
                List.drop_length]
              rfl
            · rcases List.mem_map.mp hp with ⟨q, hq, hpq⟩
              obtain ⟨s, hs⟩ := agentLoop_reqs_extends tools rest _ q hq
              have ihq := ih2 q hq
              subst hpq
              simp only
              rw [hs] at ihq ⊢
              rw [List.drop_left] at ihq
              rw [drop_two_append]
              rw [show ((⟨"assistant", c, th, "", some t⟩ : Message) ::
                (match fn t.arguments with
                 | Except.error e => (⟨"tool", "Error: " ++ e, "", t.id, none⟩ : Message)
                 | Except.ok out => ⟨"tool", out, "", t.id, none⟩) :: s) =
                ((⟨"assistant", c, th, "", some t⟩ : Message) ::
                 (match fn t.arguments with
                  | Except.error e => (⟨"tool", "Error: " ++ e, "", t.id, none⟩ : Message)
                  | Except.ok out => ⟨"tool", out, "", t.id, none⟩) :: []) ++ s from rfl]
              rw [toolMsgIds_append, hmid]
              rw [resolvedToolIds_append, resolvedToolIds_append, hresolved,
                hresolvedTool, ihq]
              rfl

/-- Claim C1 (amended): for every successful run of Agent.Chat, every yielded
item is an event (no error), the last event has Done=true, and its Content is
the concatenation of the content deltas yielded after the last tool-call event
of the run, i.e. the deltas of the final provider turn. Deltas of earlier
tool-call turns are not included, because the content accumulator is a fresh
strings.Builder in each iteration of the loop. -/
theorem c1_done_event (tools : List (String × ToolFn))
    (script : List (List StreamItem)) (history : List Message) (content : String)
    (h : (agentChat tools script history content).outcome = RunOutcome.ok) :
    (agentChat tools script history content).events.all isOkItem = true ∧
    ∃ ev, (agentChat tools script history content).events.getLast? =
        some (Except.ok ev) ∧ ev.done = true ∧
      ev.content = deltasConcat (afterLastTool (okEvents
        (agentChat tools script history content).events.dropLast)) :=
  agentLoop_final_event tools script _ h

/-- Claim C1 witness: a one-turn run evaluated concretely. -/
theorem c1_done_event_witness :
    (agentChat [] [[Except.ok { content := "X" }]] [] "q").outcome = RunOutcome.ok ∧
    ((agentChat [] [[Except.ok { content := "X" }]] [] "q").events.all isOkItem = true ∧
     ∃ ev, (agentChat [] [[Except.ok { content := "X" }]] [] "q").events.getLast? =
        some (Except.ok ev) ∧ ev.done = true ∧
      ev.content = deltasConcat (afterLastTool (okEvents
        (agentChat [] [[Except.ok { content := "X" }]] [] "q").events.dropLast))) :=
  ⟨by decide, c1_done_event [] [[Except.ok { content := "X" }]] [] "q" (by decide)⟩

/-- Claim C1 counterexample: a run with one tool-call turn yielding content
"A" and a final turn yielding "B". The concatenation of all prior content
deltas is "AB", but the Done event carries only "B", refuting the claim that
the final event concatenates the deltas of every turn. -/
theorem c1_counterexample :
    (agentChat [("t", fun _ => Except.ok "res")]
        [[Except.ok { content := "A" }, Except.ok { tool := some ⟨"id1", "t", "ARGS"⟩ }],
         [Except.ok { content := "B" }]] [] "hi").events.getLast? =
      some (Except.ok (⟨"B", "", none, true⟩ : Event)) ∧
    deltasConcat (okEvents (agentChat [("t", fun _ => Except.ok "res")]
        [[Except.ok { content := "A" }, Except.ok { tool := some ⟨"id1", "t", "ARGS"⟩ }],
         [Except.ok { content := "B" }]] [] "hi").events.dropLast) = "AB" ∧
    (⟨"B", "", none, true⟩ : Event).content ≠ "AB" :=
  ⟨by decide, by decide, by decide⟩

/-- Claim C5 witness: a concrete run where JSON decoding fails inside
typedFuncRun; the loop issues a second provider request. -/
theorem c5_tool_error_recovery_witness :
    c5Fn "notjson" =
      Except.error "tool add: unmarshaling input: invalid character" ∧
    2 ≤ (agentLoop c5Tools (c5Stream :: c5Rest) []).reqs.length :=
  ⟨by decide,
   (c5_tool_error_recovery c5Tools c5Stream c5Rest [] [] "" "" ⟨"c1", "add", "notjson"⟩ c5Fn
     "tool add: unmarshaling input: invalid character" rfl rfl
     (by decide)).2 (by decide)⟩

/-- Claim C6: in every run of Agent.Chat, the sequence of ToolCallID fields of
the tool-role messages the loop appends equals the sequence of ids of the
yielded tool-call events whose names resolve in the catalog - both for the
final history and at every provider request (each with the events yielded
before it), so each resolved surfaced tool call has exactly one echoing
tool-role message appended before the next request is issued. -/
theorem c6_tool_id_echo (tools : List (String × ToolFn))
    (script : List (List StreamItem)) (history : List Message) (content : String) :
    toolMsgIds ((agentChat tools script history content).msgs.drop
        (history.length + 1)) =
      resolvedToolIds tools (okEvents (agentChat tools script history content).events) ∧
    ∀ p ∈ (agentChat tools script history content).reqs,
      toolMsgIds (p.2.drop (history.length + 1)) = resolvedToolIds tools p.1 := by
  have h := agentLoop_tool_echo tools script
    (history ++ [{ role := "user", content := content }])
  simp only [List.length_append, List.length_singleton] at h
  exact h

/-- Claim C6 witness: the invariant applied to a concrete two-turn run and to
its first recorded provider request. -/
theorem c6_tool_id_echo_witness :
    toolMsgIds ((agentChat [("t", fun _ => Except.ok "res")]
        [[Except.ok { content := "A" }, Except.ok { tool := some ⟨"id9", "t", "AR"⟩ }],
         [Except.ok { content := "B" }]] [] "hi").msgs.drop
        (List.length ([] : List Message) + 1)) =
      resolvedToolIds [("t", fun _ => Except.ok "res")]
        (okEvents (agentChat [("t", fun _ => Except.ok "res")]
          [[Except.ok { content := "A" }, Except.ok { tool := some ⟨"id9", "t", "AR"⟩ }],
           [Except.ok { content := "B" }]] [] "hi").events) ∧
    toolMsgIds (((([] : List Event), [(⟨"user", "hi", "", "", none⟩ : Message)]) :
        List Event × List Message).2.drop (List.length ([] : List Message) + 1)) =
      resolvedToolIds [("t", fun _ => Except.ok "res")] [] :=
  ⟨(c6_tool_id_echo [("t", fun _ => Except.ok "res")]
      [[Except.ok { content := "A" }, Except.ok { tool := some ⟨"id9", "t", "AR"⟩ }],
       [Except.ok { content := "B" }]] [] "hi").1,
   (c6_tool_id_echo [("t", fun _ => Except.ok "res")]
      [[Except.ok { content := "A" }, Except.ok { tool := some ⟨"id9", "t", "AR"⟩ }],
       [Except.ok { content := "B" }]] [] "hi").2
     (([] : List Event), [(⟨"user", "hi", "", "", none⟩ : Message)]) (by decide)⟩

theorem batchFirstErr_of_all_ok {E B : Type} (outcomes : List (Except E B))
    (h : ∀ o ∈ outcomes, ∃ b, o = Except.ok b) :
    ∀ order, batchFirstErr outcomes order = none := by
  intro order
  induction order with
  | nil => rfl
  | cons i rest ih =>
    cases hg : outcomes[i]? with
    | none => simp [batchFirstErr, hg, ih]
    | some o =>
      cases o with
      | ok b => simp [batchFirstErr, hg, ih]
      | error e =>
        rcases h _ (List.getElem?_mem hg) with ⟨b, hb⟩
        simp at hb

theorem batchFirstErr_of_err {E B : Type} (outcomes : List (Except E B))
    (j : Nat) (e : E) (hg : outcomes[j]? = some (Except.error e)) :
    ∀ order, j ∈ order → ∃ e2, batchFirstErr outcomes order = some e2 := by
  intro order
  induction order with
  | nil => intro hj; simp at hj
  | cons i rest ih =>
    intro hj
    cases hgi : outcomes[i]? with
    | none =>
      rcases List.mem_cons.mp hj with hj | hj
      · rw [hj] at hg; rw [hg] at hgi; simp at hgi
      · simpa [batchFirstErr, hgi] using ih hj
    | some o =>
      cases o with
      | error e2 => exact ⟨e2, by simp [batchFirstErr, hgi]⟩
      | ok b =>
        rcases List.mem_cons.mp hj with hj | hj
        · rw [hj] at hg; rw [hg] at hgi; simp at hgi
        · simpa [batchFirstErr, hgi] using ih hj

/-- Claim C3 (amended): with a completion order covering every registered
function, Wait blocks until all complete and then: if every function
succeeded, it returns a slice of length n whose i-th element is the result of
fn_i in registration order regardless of completion order, with a nil error;
if any function returned an error, it returns a nil (empty) slice together
with the first error in completion order. -/
theorem c3_batch_wait {E B : Type} (zero : B) (outcomes : List (Except E B))
    (order : List Nat) (hperm : order.Perm (List.range outcomes.length)) :
    ((∀ o ∈ outcomes, ∃ b, o = Except.ok b) →
      (batchWait zero outcomes order).2 = none ∧
      (batchWait zero outcomes order).1.length = outcomes.length ∧
      ∀ (i : Nat) (b : B), outcomes[i]? = some (Except.ok b) →
        (batchWait zero outcomes order).1[i]? = some b) ∧
    ((∃ e, Except.error e ∈ outcomes) →
      (batchWait zero outcomes order).1 = [] ∧
      ∃ e2, (batchWait zero outcomes order).2 = some e2) := by
  constructor
  · intro hall
    have hfe := batchFirstErr_of_all_ok outcomes hall order
    refine ⟨by simp [batchWait, hfe], by simp [batchWait, hfe], ?_⟩
    intro i b hib
    simp only [batchWait, hfe]
    rw [List.getElem?_map, hib]
    rfl
  · rintro ⟨e, hmem⟩
    rcases List.mem_iff_getElem?.mp hmem with ⟨j, hj⟩
    have hjr : j ∈ order := by
      rw [hperm.mem_iff, List.mem_range]
      rw [List.getElem?_eq_some] at hj
      exact hj.1
    rcases batchFirstErr_of_err outcomes j e hj order hjr with ⟨e2, he2⟩
    exact ⟨by simp [batchWait, he2], ⟨e2, by simp [batchWait, he2]⟩⟩

/-- Claim C3 counterexample: with two registered functions of which the second
errors, Wait returns the error together with a nil slice of length 0, not a
slice of length 2 as the claim states. -/
theorem c3_counterexample :
    (batchWait (0 : Nat) [Except.ok 1, (Except.error "boom" : Except String Nat)]
      [0, 1]).2 = some "boom" ∧
    (batchWait (0 : Nat) [Except.ok 1, (Except.error "boom" : Except String Nat)]
      [0, 1]).1.length = 0 ∧
    (0 : Nat) ≠ 2 :=
  ⟨by decide, by decide, by decide⟩

/-- Claim C3 witness: the amended statement applied to a concrete all-success
batch completed out of order, and to a concrete failing batch. -/
theorem c3_batch_wait_witness :
    (batchWait (0 : Nat) [Except.ok 10, (Except.ok 20 : Except String Nat)]
      [1, 0]).2 = none ∧
    (batchWait (0 : Nat) [Except.ok 10, (Except.ok 20 : Except String Nat)]
      [1, 0]).1.length = 2 ∧
    (batchWait (0 : Nat) [Except.ok 10, (Except.ok 20 : Except String Nat)]
      [1, 0]).1[0]? = some 10 ∧
    (batchWait (0 : Nat) [Except.ok 1, (Except.error "boom" : Except String Nat)]
      [1, 0]).1 = [] := by
  have h1 := (c3_batch_wait (0 : Nat)
    [Except.ok 10, (Except.ok 20 : Except String Nat)] [1, 0] (by decide)).1
    (by simp)
  have h2 := (c3_batch_wait (0 : Nat)
    [Except.ok 1, (Except.error "boom" : Except String Nat)] [1, 0] (by decide)).2
    ⟨"boom", by decide⟩
  exact ⟨h1.1, h1.2.1, h1.2.2 0 10 (by decide), h2.1⟩

/- C9: src/internal/cache/cache.go -/

theorem modelsStep_cached (fn : Nat → Except String (List Model)) (s : MState)
    (l : List Model) (h : s.cache = some l) :
    modelsStep fn s = (Except.ok l, s) := by
  cases s with
  | mk cache used =>
    simp at h
    rw [h]
    rfl

/-- Claim C9: a provider's model listing is memoized on first success: once a
call returns without error, every later call returns the same model list with
an unchanged state, so the underlying listing function is never invoked again;
a failing call caches nothing and leaves the cache empty, so the next call
invokes the underlying listing again (the invocation counter advances). -/
theorem c9_models_memoized (fn : Nat → Except String (List Model)) (s : MState) :
    (∀ l, (modelsStep fn s).1 = Except.ok l →
      ∀ k, modelsStep fn (modelsIterState fn (modelsStep fn s).2 k) =
        (Except.ok l, (modelsStep fn s).2)) ∧
    (∀ e, s.cache = none → fn s.used = Except.error e →
      modelsStep fn s = (Except.error e, ⟨none, s.used + 1⟩) ∧
      (modelsStep fn ⟨none, s.used + 1⟩).2.used = s.used + 2) := by
  constructor
  · intro l hok k
    have hcache : (modelsStep fn s).2.cache = some l := by
      cases hc : s.cache with
      | some l2 =>
        rw [modelsStep_cached fn s l2 hc] at hok ⊢
        simp at hok
        simp [hc, hok]
      | none =>
        cases hf : fn s.used with
        | error e => simp [modelsStep, hc, hf] at hok
        | ok ms =>
          simp [modelsStep, hc, hf] at hok ⊢
          exact hok
    induction k with
    | zero => exact modelsStep_cached fn _ l hcache
    | succ k ihk =>
      have : modelsIterState fn (modelsStep fn s).2 (k + 1) = (modelsStep fn s).2 := by
        rw [modelsIterState, ihk]
      rw [this]
      exact modelsStep_cached fn _ l hcache
  · intro e hc hf
    constructor
    · simp [modelsStep, hc, hf]
    · cases hf2 : fn (s.used + 1) with
      | error e2 => simp [modelsStep, hf2]
      | ok ms => simp [modelsStep, hf2]

/-- Claim C9 witness: a listing that fails on its first invocation and
succeeds on the second, evaluated concretely. -/
theorem c9_models_memoized_witness :
    (modelsStep (fun i => if i = 0 then Except.error "down"
        else Except.ok [⟨"anthropic", "m"⟩]) ⟨none, 0⟩ =
      (Except.error "down", ⟨none, 1⟩) ∧
     (modelsStep (fun i => if i = 0 then Except.error "down"
        else Except.ok [⟨"anthropic", "m"⟩]) ⟨none, 1⟩).2.used = 2) ∧
    modelsStep (fun i => if i = 0 then Except.error "down"
        else Except.ok [⟨"anthropic", "m"⟩])
      (modelsIterState (fun i => if i = 0 then Except.error "down"
        else Except.ok [⟨"anthropic", "m"⟩])
        (modelsStep (fun i => if i = 0 then Except.error "down"
          else Except.ok [⟨"anthropic", "m"⟩]) ⟨none, 1⟩).2 1) =
      (Except.ok [⟨"anthropic", "m"⟩],
       (modelsStep (fun i => if i = 0 then Except.error "down"
          else Except.ok [⟨"anthropic", "m"⟩]) ⟨none, 1⟩).2) :=
  ⟨(c9_models_memoized (fun i => if i = 0 then Except.error "down"
      else Except.ok [⟨"anthropic", "m"⟩]) ⟨none, 0⟩).2 "down" rfl (by decide),
   (c9_models_memoized (fun i => if i = 0 then Except.error "down"
      else Except.ok [⟨"anthropic", "m"⟩]) ⟨none, 1⟩).1 [⟨"anthropic", "m"⟩]
     (by decide) 1⟩

/- C10: src/sandbox/sandbox.go Collect -/

/-- Claim C10: when a command run through Collect exits non-zero (Wait returns
an exit error, not a cancellation) the buffered Result is returned with a nil
error, so the Result's ExitCode field is the only way the caller of Execute
observes the non-zero exit; the exit error from Wait is not propagated. -/
theorem c10_nonzero_exit (c : CmdSpec) (msg : String) (n : Int)
    (hout : c.stdoutPipeErr = none) (herr : c.stderrPipeErr = none)
    (hstart : c.startErr = none)
    (hwait : c.waitErr = some (WaitErr.exitErr msg))
    (hcode : c.exitCode = n) (hn : 1 ≤ n) :
    collect c = (⟨c.stdoutData, c.stderrData, n⟩, none) := by
  rw [collect, hout, herr, hstart, hwait]
  simp only
  rw [if_neg (by simp), if_pos (by omega), hcode]

/-- Claim C10 witness: the exit-42 command of the repository's own local
sandbox test, evaluated concretely. -/
theorem c10_nonzero_exit_witness :
    collect { stderrData := "nope\n", waitErr := some (WaitErr.exitErr "exit status 42"),
              exitCode := 42 } =
      (⟨"", "nope\n", 42⟩, none) :=
  c10_nonzero_exit
    { stderrData := "nope\n", waitErr := some (WaitErr.exitErr "exit status 42"),
      exitCode := 42 }
    "exit status 42" 42 rfl rfl rfl rfl rfl (by decide)

/- C4: src/tool.go generateSchema / schemaType -/

theorem foldl_addField (fields : List GoField) (acc : ToolFunctionParameters) :
    fields.foldl addField acc =
      ⟨acc.type, acc.properties ++ claimProperties fields,
       acc.required ++ claimRequired fields⟩ := by
  induction fields generalizing acc with
  | nil =>
    simp [claimProperties, claimRequired]
  | cons f rest ih =>
    rw [List.foldl_cons, ih]
    cases hx : f.exported with
    | false =>
      simp [addField, hx, claimProperties, claimRequired]
    | true =>
      by_cases hr : f.isTag = "required"
      · simp [addField, hx, hr, claimProperties, claimRequired, List.filter_filter,
          List.append_assoc, Bool.and_comm]
      · simp [addField, hx, hr, claimProperties, claimRequired, List.filter_filter,
          List.append_assoc, Bool.and_comm]

/-- Claim C4 (amended): for every struct type, generateSchema maps exactly the
exported fields, in order, to properties named by the struct field name unless
the json tag overrides it - where a json tag value of "-" does NOT exclude the
field but leaves it under its struct field name - with the fixed kind-to-type
mapping of schemaType (integer/number/boolean/array with recursive items/
object/string, pointers dereferenced), both for the struct itself and behind a
top-level pointer. -/
theorem c4_schema_fields (fields : List GoField) :
    generateSchema (GoType.structT fields) =
      ⟨"object", claimProperties fields, claimRequired fields⟩ ∧
    generateSchema (GoType.ptrT (GoType.structT fields)) =
      ⟨"object", claimProperties fields, claimRequired fields⟩ := by
  constructor
  · rw [show generateSchema (GoType.structT fields) =
      fields.foldl addField ⟨"object", [], []⟩ from rfl, foldl_addField]
    simp
  · rw [show generateSchema (GoType.ptrT (GoType.structT fields)) =
      fields.foldl addField ⟨"object", [], []⟩ from rfl, foldl_addField]
    simp

/-- Claim C4 counterexample: a struct whose only field carries the json tag
"-" still produces a property (under the Go field name "Secret"), refuting the
claim that a "-" tag excludes the field from the schema. -/
theorem c4_counterexample :
    (generateSchema (GoType.structT
        [GoField.mk "Secret" true "-" "" "" "" GoType.stringT])).properties =
      [("Secret", ToolProperty.mk "string" "" [] none)] ∧
    (generateSchema (GoType.structT
        [GoField.mk "Secret" true "-" "" "" "" GoType.stringT])).properties ≠ [] := by
  have h : (generateSchema (GoType.structT
      [GoField.mk "Secret" true "-" "" "" "" GoType.stringT])).properties =
      [("Secret", ToolProperty.mk "string" "" [] none)] := rfl
  exact ⟨h, by rw [h]; simp⟩

/- C2 draft: local copies of ToolCall/ChatResponse for the scratch -/

theorem anthRun_inputJSON_acc (jsonValid : String → Bool) (id name : String)
    (frags : List String) (acc : String) (post : List AnthEvent) :
    anthRun jsonValid ⟨some (id, name), acc⟩
      (frags.map (fun f => AnthEvent.contentBlockDelta (AnthDelta.inputJSON f)) ++
       AnthEvent.contentBlockStop :: post) =
    { role := "assistant", tool := some ⟨id, name,
        normalizeToolArguments jsonValid (acc ++ concatList frags)⟩ } ::
      anthRun jsonValid ⟨none, ""⟩ post := by
  induction frags generalizing acc with
  | nil =>
    simp [anthRun, anthStep, concatList]
  | cons f rest ih =>
    simp only [List.map_cons, List.cons_append]
    rw [show anthRun jsonValid ⟨some (id, name), acc⟩
        (AnthEvent.contentBlockDelta (AnthDelta.inputJSON f) ::
         (rest.map (fun f => AnthEvent.contentBlockDelta (AnthDelta.inputJSON f)) ++
          AnthEvent.contentBlockStop :: post)) =
      anthRun jsonValid ⟨some (id, name), acc ++ f⟩
        (rest.map (fun f => AnthEvent.contentBlockDelta (AnthDelta.inputJSON f)) ++
         AnthEvent.contentBlockStop :: post) from rfl]
    rw [ih]
    rw [concatList, ← String.append_assoc]

/-- Claim C2: for every provider stream, from any adapter state, a tool-use
block (start, argument fragments, stop) emits nothing while the fragments are
buffered and exactly one canonical tool-call event at the block stop, whose
Arguments is the normalization of the concatenated fragments: the
concatenation itself when it is valid JSON and the empty object when it is
not; the adapter is a total function and never crashes. -/
theorem c2_tool_call_assembly (jsonValid : String → Bool) (s : AnthState)
    (id name : String) (frags : List String) (post : List AnthEvent) :
    anthRun jsonValid s
      (AnthEvent.contentBlockStart (some (id, name)) ::
        (frags.map (fun f => AnthEvent.contentBlockDelta (AnthDelta.inputJSON f)) ++
         AnthEvent.contentBlockStop :: post)) =
      { role := "assistant", tool := some ⟨id, name,
          normalizeToolArguments jsonValid (concatList frags)⟩ } ::
        anthRun jsonValid ⟨none, ""⟩ post ∧
    (jsonValid (concatList frags) = true →
      normalizeToolArguments jsonValid (concatList frags) = concatList frags) ∧
    (jsonValid (concatList frags) = false →
      normalizeToolArguments jsonValid (concatList frags) = "\x7b\x7d") := by
  refine ⟨?_, ?_, ?_⟩
  · rw [show anthRun jsonValid s
        (AnthEvent.contentBlockStart (some (id, name)) ::
          (frags.map (fun f => AnthEvent.contentBlockDelta (AnthDelta.inputJSON f)) ++
           AnthEvent.contentBlockStop :: post)) =
      anthRun jsonValid ⟨some (id, name), ""⟩
        (frags.map (fun f => AnthEvent.contentBlockDelta (AnthDelta.inputJSON f)) ++
         AnthEvent.contentBlockStop :: post) from rfl]
    rw [anthRun_inputJSON_acc]
    rw [show ("" ++ concatList frags) = concatList frags from
      String.empty_append (concatList frags)]
  · intro h
    simp [normalizeToolArguments, h]
  · intro h
    simp [normalizeToolArguments, h]

/-- Claim C2 witness: a block whose two fragments concatenate to invalid
JSON; the single emitted tool-call event carries the empty object. -/
theorem c2_tool_call_assembly_witness :
    anthRun (fun str => str == "AB") ⟨none, ""⟩
      (AnthEvent.contentBlockStart (some ("i1", "get")) ::
        ([ "NOT", "JSON" ].map (fun f =>
          AnthEvent.contentBlockDelta (AnthDelta.inputJSON f)) ++
         AnthEvent.contentBlockStop :: [])) =
      [{ role := "assistant", tool := some ⟨"i1", "get",
          normalizeToolArguments (fun str => str == "AB")
            (concatList ["NOT", "JSON"])⟩ }] ∧
    normalizeToolArguments (fun str => str == "AB") (concatList ["NOT", "JSON"]) =
      "\x7b\x7d" :=
  ⟨(c2_tool_call_assembly (fun str => str == "AB") ⟨none, ""⟩ "i1" "get"
      ["NOT", "JSON"] []).1,
   (c2_tool_call_assembly (fun str => str == "AB") ⟨none, ""⟩ "i1" "get"
      ["NOT", "JSON"] []).2.2 (by decide)⟩

/- C8: src/sandbox/ssh/ssh.go shellQuote -/

theorem shUnquote_single_replace (s : List Char) :
    ∀ k, shUnquote QMode.single (replaceQuote s ++ ('\'' :: k)) =
      (shUnquote QMode.unquoted k).map (fun t => s ++ t) := by
  induction s with
  | nil =>
    intro k
    simp [replaceQuote, shUnquote]
  | cons ch rest ih =>
    intro k
    by_cases hq : ch = '\''
    · subst hq
      rw [show replaceQuote ('\'' :: rest) =
        '\'' :: '"' :: '\'' :: '"' :: '\'' :: replaceQuote rest from rfl]
      simp only [List.cons_append]
      rw [show shUnquote QMode.single
          ('\'' :: ('"' :: '\'' :: '"' :: '\'' :: (replaceQuote rest ++ '\'' :: k))) =
        shUnquote QMode.unquoted
          ('"' :: '\'' :: '"' :: '\'' :: (replaceQuote rest ++ '\'' :: k)) from rfl]
      rw [show shUnquote QMode.unquoted
          ('"' :: '\'' :: '"' :: '\'' :: (replaceQuote rest ++ '\'' :: k)) =
        shUnquote QMode.double
          ('\'' :: '"' :: '\'' :: (replaceQuote rest ++ '\'' :: k)) from rfl]
      rw [show shUnquote QMode.double
          ('\'' :: '"' :: '\'' :: (replaceQuote rest ++ '\'' :: k)) =
        (shUnquote QMode.double ('"' :: '\'' :: (replaceQuote rest ++ '\'' :: k))).map
          (fun l => '\'' :: l) from by simp [shUnquote]]
      rw [show shUnquote QMode.double ('"' :: '\'' :: (replaceQuote rest ++ '\'' :: k)) =
        shUnquote QMode.unquoted ('\'' :: (replaceQuote rest ++ '\'' :: k)) from rfl]
      rw [show shUnquote QMode.unquoted ('\'' :: (replaceQuote rest ++ '\'' :: k)) =
        shUnquote QMode.single (replaceQuote rest ++ '\'' :: k) from rfl]
      rw [ih k]
      cases shUnquote QMode.unquoted k with
      | none => rfl
      | some t => rfl
    · rw [show replaceQuote (ch :: rest) = ch :: replaceQuote rest from by
        simp [replaceQuote, hq]]
      simp only [List.cons_append]
      rw [show shUnquote QMode.single (ch :: (replaceQuote rest ++ '\'' :: k)) =
        (shUnquote QMode.single (replaceQuote rest ++ '\'' :: k)).map
          (fun l => ch :: l) from by simp [shUnquote, hq]]
      rw [ih k]
      cases shUnquote QMode.unquoted k with
      | none => rfl
      | some t => rfl

/-- Claim C8: shellQuote returns two single quotes for the empty string and
otherwise wraps the input in single quotes with every internal single quote
replaced by the quote-doublequote escape sequence; a POSIX shell evaluating
the quoted word (quote removal) recovers exactly the original string for any
input not containing NUL. -/
theorem c8_shell_quote_roundtrip (s : List Char)
    (h : Char.ofNat 0 ∉ s) :
    shellQuote [] = ['\'', '\''] ∧
    shUnquote QMode.unquoted (shellQuote s) = some s := by
  refine ⟨rfl, ?_⟩
  by_cases hs : s = []
  · subst hs
    rfl
  · rw [show shellQuote s = '\'' :: (replaceQuote s ++ ['\'']) from by
      simp [shellQuote, hs]]
    rw [show shUnquote QMode.unquoted ('\'' :: (replaceQuote s ++ ['\''])) =
      shUnquote QMode.single (replaceQuote s ++ ['\'']) from rfl]
    rw [show (replaceQuote s ++ ['\'']) = replaceQuote s ++ ('\'' :: []) from rfl]
    rw [shUnquote_single_replace s []]
    simp [shUnquote]

/-- Claim C8 witness: the roundtrip evaluated on a string containing a single
quote. -/
theorem c8_shell_quote_roundtrip_witness :
    shellQuote [] = ['\'', '\''] ∧
    shUnquote QMode.unquoted (shellQuote ['a', '\'', 'b']) = some ['a', '\'', 'b'] :=
  ⟨(c8_shell_quote_roundtrip ['a', '\'', 'b'] (by decide)).1,
   (c8_shell_quote_roundtrip ['a', '\'', 'b'] (by decide)).2⟩

/- C7: src/sandbox/local/local.go -/

theorem cleanComps_good : ∀ (l acc : List String),
    (∀ c ∈ acc, GoodComp c ∧ NoSlash c) →
    (∀ c ∈ l, NoSlash c) →
    ∀ c ∈ cleanComps true l acc, GoodComp c ∧ NoSlash c := by
  intro l
  induction l with
  | nil =>
    intro acc hacc _ c hc
    simp only [cleanComps, List.mem_reverse] at hc
    exact hacc c hc
  | cons comp rest ih =>
    intro acc hacc hl c hc
    by_cases h1 : comp = "" ∨ comp = "."
    · rw [show cleanComps true (comp :: rest) acc = cleanComps true rest acc from by
        simp [cleanComps, h1]] at hc
      exact ih acc hacc (fun x hx => hl x (by simp [hx])) c hc
    · by_cases h2 : comp = ".."
      · cases hacc2 : acc with
        | nil =>
          rw [show cleanComps true (comp :: rest) acc = cleanComps true rest [] from by
            simp [cleanComps, h1, h2, hacc2]] at hc
          exact ih [] (by simp) (fun x hx => hl x (by simp [hx])) c hc
        | cons a tl =>
          have ha : a ≠ ".." := by
            have := hacc a (by simp [hacc2])
            exact this.1.2.2
          rw [show cleanComps true (comp :: rest) acc = cleanComps true rest tl from by
            simp [cleanComps, h1, h2, hacc2, ha]] at hc
          refine ih tl ?_ (fun x hx => hl x (by simp [hx])) c hc
          intro x hx
          exact hacc x (by simp [hacc2, hx])
      · rw [show cleanComps true (comp :: rest) acc =
          cleanComps true rest (comp :: acc) from by
            simp [cleanComps, h1, h2]] at hc
        refine ih (comp :: acc) ?_ (fun x hx => hl x (by simp [hx])) c hc
        intro x hx
        rcases List.mem_cons.mp hx with hx | hx
        · subst hx
          push_neg at h1
          exact ⟨⟨h1.1, h1.2, h2⟩, hl x (by simp)⟩
        · exact hacc x hx

theorem stripCommon_right_sub : ∀ (bs ts : List String),
    ∀ x ∈ (stripCommon bs ts).2, x ∈ ts := by
  intro bs
  induction bs with
  | nil => intro ts x hx; simpa [stripCommon] using hx
  | cons b bs ih =>
    intro ts x hx
    cases ts with
    | nil => simp [stripCommon] at hx
    | cons t ts2 =>
      by_cases hbt : b = t
      · rw [show stripCommon (b :: bs) (t :: ts2) = stripCommon bs ts2 from by
          simp [stripCommon, hbt]] at hx
        exact List.mem_cons_of_mem t (ih ts2 x hx)
      · rw [show stripCommon (b :: bs) (t :: ts2) = (b :: bs, t :: ts2) from by
          simp [stripCommon, hbt]] at hx
        exact hx

theorem dotdotslash_prefix_iff (l : List Char) :
    (['.', '.', '/'].isPrefixOf l = true) ↔ ∃ rest, l = '.' :: '.' :: '/' :: rest := by
  cases l with
  | nil => simp [List.isPrefixOf]
  | cons a l2 =>
    cases l2 with
    | nil => simp [List.isPrefixOf]
    | cons b l3 =>
      cases l3 with
      | nil => simp [List.isPrefixOf]
      | cons c l4 =>
        simp only [List.isPrefixOf, Bool.and_eq_true, beq_iff_eq]
        constructor
        · rintro ⟨ha, hb, hc, -⟩
          exact ⟨l4, by rw [← ha, ← hb, ← hc]⟩
        · rintro ⟨rest, hrest⟩
          injection hrest with h1 h2
          injection h2 with h2 h3
          injection h3 with h3 h4
          exact ⟨h1.symm, h2.symm, h3.symm, by simp [List.isPrefixOf]⟩

theorem render_outside_false (c : String) (cs : List String)
    (hc1 : c ≠ "") (hc2 : c ≠ "..") (hc3 : '/' ∉ c.data) :
    ((renderComps (c :: cs) == "..") || strStartsWith (renderComps (c :: cs)) "../") =
      false := by
  cases cs with
  | nil =>
    rw [show renderComps [c] = c from rfl]
    rw [Bool.or_eq_false_iff]
    constructor
    · by_contra hbe
      have : (c == "..") = true := by
        cases hcb : c == ".." with
        | true => rfl
        | false => rw [hcb] at hbe; exact absurd rfl hbe
      exact hc2 (eq_of_beq this)
    · by_contra hpre
      have hpre2 : strStartsWith c "../" = true := by
        cases hp : strStartsWith c "../" with
        | true => rfl
        | false => rw [hp] at hpre; exact absurd rfl hpre
      rw [strStartsWith, show ("../" : String).data = ['.', '.', '/'] from rfl] at hpre2
      rcases (dotdotslash_prefix_iff c.data).mp hpre2 with ⟨rest, hrest⟩
      exact hc3 (by rw [hrest]; simp)
  | cons c2 rest =>
    rw [show renderComps (c :: c2 :: rest) = c ++ "/" ++ renderComps (c2 :: rest)
      from rfl]
    have hdata : (c ++ "/" ++ renderComps (c2 :: rest)).data =
        c.data ++ '/' :: (renderComps (c2 :: rest)).data := by
      rw [show (c ++ "/" ++ renderComps (c2 :: rest)).data =
        (c.data ++ ['/']) ++ (renderComps (c2 :: rest)).data from rfl]
      simp
    rw [Bool.or_eq_false_iff]
    constructor
    · by_contra hbe
      have hbt : (c ++ "/" ++ renderComps (c2 :: rest) == "..") = true := by
        cases hcb : c ++ "/" ++ renderComps (c2 :: rest) == ".." with
        | true => rfl
        | false => rw [hcb] at hbe; exact absurd rfl hbe
      have heq := eq_of_beq hbt
      have : '/' ∈ (".." : String).data := by
        rw [← heq, hdata]
        simp
      simp at this
    · by_contra hpre
      have hpre2 : strStartsWith (c ++ "/" ++ renderComps (c2 :: rest)) "../" = true := by
        cases hp : strStartsWith (c ++ "/" ++ renderComps (c2 :: rest)) "../" with
        | true => rfl
        | false => rw [hp] at hpre; exact absurd rfl hpre
      rw [strStartsWith, show ("../" : String).data = ['.', '.', '/'] from rfl,
        hdata] at hpre2
      rcases (dotdotslash_prefix_iff _).mp hpre2 with ⟨tail, htail⟩
      cases hcd : c.data with
      | nil => exact hc1 (String.ext hcd)
      | cons x zs =>
        cases zs with
        | nil =>
          rw [hcd] at htail
          simp only [List.cons_append, List.nil_append] at htail
          injection htail with h1 h2
          injection h2 with h2 h3
          exact absurd h2 (by decide)
        | cons y zs2 =>
          rw [hcd] at htail
          simp only [List.cons_append] at htail
          injection htail with h1 h2
          injection h2 with h2 h3
          cases zs2 with
          | nil =>
            simp only [List.nil_append] at h3
            exact hc2 (String.ext (by rw [hcd, h1, h2]))
          | cons z zs3 =>
            simp only [List.cons_append] at h3
            injection h3 with h3 h4
            refine hc3 ?_
            rw [hcd, h3]
            simp

theorem render_outside_true (cs : List String) :
    ((renderComps (".." :: cs) == "..") ||
      strStartsWith (renderComps (".." :: cs)) "../") = true := by
  cases cs with
  | nil => rfl
  | cons c2 rest =>
    rw [show renderComps (".." :: c2 :: rest) = ".." ++ "/" ++ renderComps (c2 :: rest)
      from rfl]
    have hdata : (".." ++ "/" ++ renderComps (c2 :: rest)).data =
        '.' :: '.' :: '/' :: (renderComps (c2 :: rest)).data := rfl
    rw [Bool.or_eq_true_iff]
    right
    rw [strStartsWith, show ("../" : String).data = ['.', '.', '/'] from rfl, hdata]
    rw [dotdotslash_prefix_iff]
    exact ⟨(renderComps (c2 :: rest)).data, rfl⟩

theorem outside_iff_head (base work : List String)
    (hwork : ∀ c ∈ work, GoodComp c ∧ NoSlash c) :
    isOutsideRoot base work = true ↔ (relComps base work).head? = some ".." := by
  rcases hsc : stripCommon base work with ⟨p1, p2⟩
  cases p1 with
  | cons b bs =>
    have hrel : relComps base work =
        ".." :: (List.replicate bs.length ".." ++ p2) := by
      simp only [relComps, hsc]
      rw [show List.replicate (b :: bs).length ".." =
        ".." :: List.replicate bs.length ".." from rfl]
      rw [if_neg (by simp)]
      rfl
    simp only [isOutsideRoot, hrel]
    simp [render_outside_true]
  | nil =>
    cases p2 with
    | nil =>
      have hrel : relComps base work = ["."] := by
        simp only [relComps, hsc]
        rfl
      simp only [isOutsideRoot, hrel]
      rw [render_outside_false "." [] (by decide) (by decide) (by decide)]
      simp
    | cons c cs =>
      have hcmem : c ∈ work := by
        refine stripCommon_right_sub base work c ?_
        rw [hsc]
        simp
      have hcg := hwork c hcmem
      have hrel : relComps base work = c :: cs := by
        simp only [relComps, hsc]
        rw [show (List.replicate ([] : List String).length ".." ++ (c :: cs)) =
          c :: cs from rfl]
        rw [if_neg (by simp)]
      simp only [isOutsideRoot, hrel]
      rw [render_outside_false c cs hcg.1.1 hcg.1.2.2 hcg.2]
      simp
      intro hc
      exact absurd hc hcg.1.2.2

/-- Claim C7 (amended): running a command through the local sandbox fails with
the working-dir-outside-root error if and only if the canonical relative path
from the configured root to the resolved working directory has ".." as its
first component (equivalently: it is ".." or starts with "../"); commands
whose resolved directory lies within the root are executed. Components are
well-formed when they contain no separator. -/
theorem c7_outside_iff (cwd : List String) (root dir : GoPath)
    (h : ∀ c ∈ cwd ++ root.comps ++ dir.comps, '/' ∉ c.data) :
    exceptIsOk (localRunCheck cwd root dir) = false ↔
      (relComps (absPath cwd root)
        (resolveDir (absPath cwd root) dir)).head? = some ".." := by
  have hbase : ∀ c ∈ absPath cwd root, GoodComp c ∧ NoSlash c := by
    rw [absPath]
    by_cases hra : root.isAbsolute
    · rw [if_pos hra]
      exact cleanComps_good root.comps [] (by simp)
        (fun c hc => h c (by simp [hc]))
    · rw [if_neg hra]
      exact cleanComps_good (cwd ++ root.comps) [] (by simp)
        (fun c hc => h c (by
          rcases List.mem_append.mp hc with hc | hc
          · simp [hc]
          · simp [hc]))
  have hwork : ∀ c ∈ resolveDir (absPath cwd root) dir, GoodComp c ∧ NoSlash c := by
    rw [resolveDir]
    by_cases hda : dir.isAbsolute
    · rw [if_pos hda]
      exact cleanComps_good dir.comps [] (by simp)
        (fun c hc => h c (by simp [hc]))
    · rw [if_neg hda]
      exact cleanComps_good (absPath cwd root ++ dir.comps) [] (by simp)
        (fun c hc => by
          rcases List.mem_append.mp hc with hc | hc
          · exact (hbase c hc).2
          · exact h c (by simp [hc]))
  have hcore := outside_iff_head (absPath cwd root)
    (resolveDir (absPath cwd root) dir) hwork
  rw [← hcore]
  rw [localRunCheck]
  cases hout : isOutsideRoot (absPath cwd root) (resolveDir (absPath cwd root) dir) with
  | true => simp [hout, exceptIsOk]
  | false => simp [hout, exceptIsOk]

/-- Claim C7 counterexample: for root "/a" and working directory "..b", the
canonical relative path "..b" starts with the characters ".." yet the command
is executed, refuting the claim that execution fails whenever the relative
path starts with "..". -/
theorem c7_counterexample :
    exceptIsOk (localRunCheck [] ⟨true, ["a"]⟩ ⟨false, ["..b"]⟩) = true ∧
    strStartsWith (renderComps (relComps (absPath [] ⟨true, ["a"]⟩)
      (resolveDir (absPath [] ⟨true, ["a"]⟩) ⟨false, ["..b"]⟩))) ".." = true :=
  ⟨by decide, by decide⟩

/-- Claim C7 witness: the amended equivalence applied to root "/a" and
working directory "..", whose relative path is exactly "..". -/
theorem c7_outside_iff_witness :
    (∀ c ∈ ([] : List String) ++ (⟨true, ["a"]⟩ : GoPath).comps ++
        (⟨false, [".."]⟩ : GoPath).comps, '/' ∉ c.data) ∧
    (exceptIsOk (localRunCheck [] ⟨true, ["a"]⟩ ⟨false, [".."]⟩) = false ↔
      (relComps (absPath [] ⟨true, ["a"]⟩)
        (resolveDir (absPath [] ⟨true, ["a"]⟩) ⟨false, [".."]⟩)).head? = some "..") :=
  ⟨by decide, c7_outside_iff [] ⟨true, ["a"]⟩ ⟨false, [".."]⟩ (by decide)⟩

end LLMSpec
